import Mathlib

/-!
Verification development for the xhs-image-mcp pagination engine.

Strings are modelled as `List Char`.  Asynchronous browser measurements are
modelled as explicit measurement oracles (`measure : List (List Char) → Int`
gives the rendered height of a list of paragraphs; `Option Int` gives the
height reported for a DOM element, `none` when the element is absent).
Loops are embedded as fuel-indexed structural recursions, with the fuel
chosen so that it can never run out on the calls the wrappers make.
-/

set_option linter.unusedVariables false

/-- Whitespace recognised by JavaScript `String.prototype.trim` (the common
code points; the repository's inputs only use the ASCII ones). -/
def isJsWhitespace (c : Char) : Bool :=
  c = ' ' || c = '\t' || c = '\n' || c = '\r' || c = '\x0b' || c = '\x0c' || c = ' '

/-- JavaScript `s.trim()`: drop leading and trailing whitespace. -/
def trim (l : List Char) : List Char :=
  ((l.dropWhile isJsWhitespace).reverse.dropWhile isJsWhitespace).reverse

/-- The global replacement `.replace(/\r\n/g, '\n')` (left-to-right,
non-overlapping). -/
def replaceCRLF : List Char → List Char
  | '\r' :: '\n' :: rest => '\n' :: replaceCRLF rest
  | c :: rest => c :: replaceCRLF rest
  | [] => []

/-- A maximal run of `k` newlines after `.replace(/\n{3,}/g, '\n\n')`:
three or more newlines collapse to exactly two. -/
def collapsedRun (k : Nat) : List Char :=
  if 3 ≤ k then '\n' :: '\n' :: [] else List.replicate k '\n'

/-- Worker for the `\n{3,}` collapse: `k` counts the pending newline run. -/
def collapseNlAux : Nat → List Char → List Char
  | k, [] => collapsedRun k
  | k, c :: rest =>
    if c = '\n' then collapseNlAux (k + 1) rest
    else collapsedRun k ++ c :: collapseNlAux 0 rest

/-- The global replacement `.replace(/\n{3,}/g, '\n\n')`. -/
def collapseNewlineRuns (l : List Char) : List Char := collapseNlAux 0 l

/-- The text cleanup shared by `smartPaginate` and `paginateText`:
`text.replace(/\r\n/g, '\n').replace(/\n{3,}/g, '\n\n').trim()`. -/
def cleanText (text : List Char) : List Char :=
  trim (collapseNewlineRuns (replaceCRLF text))

/-- Worker for `split(/\n+/)`: `mode = true` while consuming a newline run,
`cur` holds the current fragment reversed. -/
def splitNlGo : Bool → List Char → List Char → List (List Char)
  | false, cur, [] => [cur.reverse]
  | true, _, [] => [[]]
  | false, cur, c :: rest =>
    if c = '\n' then cur.reverse :: splitNlGo true [] rest
    else splitNlGo false (c :: cur) rest
  | true, _, c :: rest =>
    if c = '\n' then splitNlGo true [] rest
    else splitNlGo false [c] rest

/-- JavaScript `s.split(/\n+/)`: fragments separated by maximal newline
runs, with a leading/trailing empty fragment when the string starts/ends
with a newline. -/
def splitOnNewlineRuns (l : List Char) : List (List Char) := splitNlGo false [] l

/-- The paragraph pipeline shared by `smartPaginate` (smart-paginator) and
`paginateText` (paginator.ts): clean the text, `split(/\n+/)`, and
`.filter(p => p.trim())`. -/
def paragraphsOf (text : List Char) : List (List Char) :=
  (splitOnNewlineRuns (cleanText text)).filter (fun p => !(trim p).isEmpty)

/-- A global single-character replacement `.replace(/c/g, r)`. -/
def replaceChar (c : Char) (r : List Char) : List Char → List Char
  | [] => []
  | x :: xs => (if x = c then r else [x]) ++ replaceChar c r xs

/-- `escapeHtml` (identical in renderer.ts, smart-paginator and
auto-paginator): five sequential global replacements. -/
def escapeHtml (text : List Char) : List Char :=
  replaceChar '\'' ("&#039;".toList)
    (replaceChar '"' ("&quot;".toList)
      (replaceChar '>' ("&gt;".toList)
        (replaceChar '<' ("&lt;".toList)
          (replaceChar '&' ("&amp;".toList) text))))

/-- Per-character view of `escapeHtml`, used only in proofs. -/
def escChar (c : Char) : List Char :=
  if c = '&' then "&amp;".toList
  else if c = '<' then "&lt;".toList
  else if c = '>' then "&gt;".toList
  else if c = '"' then "&quot;".toList
  else if c = '\'' then "&#039;".toList
  else [c]

/-- The tail of one of the five emitted entities, checked right after a
`&` character. -/
def entityTail (rest : List Char) : Bool :=
  ("amp;".toList).isPrefixOf rest || ("lt;".toList).isPrefixOf rest ||
  ("gt;".toList).isPrefixOf rest || ("quot;".toList).isPrefixOf rest ||
  ("#039;".toList).isPrefixOf rest

/-- Every `&` in the list starts one of the five emitted entities. -/
def ampOk : List Char → Bool
  | [] => true
  | c :: rest => ((c != '&') || entityTail rest) && ampOk rest

/-- The divider test `/^[-*_]{3,}$/.test(p.trim())` used by both the
measurement probe and the compositor. -/
def isDivider (p : List Char) : Bool :=
  3 ≤ (trim p).length && (trim p).all (fun c => c = '-' || c = '*' || c = '_')

/-- smart-paginator `paragraphToHtml`: divider rule or escaped `<p>`. -/
def paragraphToHtml (p : List Char) : List Char :=
  if isDivider p then "<hr class=\"divider\" />".toList
  else "<p>".toList ++ escapeHtml p ++ "</p>".toList

/-- The per-paragraph mapping inside renderer.ts `paragraphsToHtml`
(same divider rule and escaping as the probe's `paragraphToHtml`). -/
def rendererParagraphHtml (p : List Char) : List Char :=
  if isDivider p then "<hr class=\"divider\" />".toList
  else "<p>".toList ++ escapeHtml p ++ "</p>".toList

/-- renderer.ts `paragraphsToHtml`: re-split the page content on `/\n+/`,
drop blank fragments, map each paragraph to HTML, join with `'\n'`. -/
def paragraphsToHtml (content : List Char) : List Char :=
  List.intercalate ('\n' :: [])
    (((splitOnNewlineRuns content).filter (fun p => !(trim p).isEmpty)).map
      rendererParagraphHtml)

/-- The per-paragraph markup rendered by a `findPageBreak` probe:
`testParagraphs.map(p => paragraphToHtml(p)).join('\n')`. -/
def probeParagraphsHtml (paras : List (List Char)) : List Char :=
  List.intercalate ('\n' :: []) (paras.map paragraphToHtml)

/-- The footer / page-number strip rendered by a `findPageBreak` probe
(hard-coded `1 / 1`). -/
def probeFooterHtml : List Char :=
  ("<div class=\"page-number\">\n      <span>1</span> / 1\n    </div>").toList

/-- The footer / page-number strip rendered by renderer.ts
`generateContentHTML` for a page (real page number and total). -/
def compositorFooterHtml (pageNumber totalPages : Nat) : List Char :=
  ("<div class=\"page-number\">\n      <span>").toList ++
  (toString pageNumber).toList ++ ("</span> / ").toList ++
  (toString totalPages).toList ++ ("\n    </div>").toList

/-- The binary-search loop of `findPageBreak`, with explicit fuel (the
wrapper passes enough fuel for the loop to reach `low > high`). -/
def fpbLoop (fits : Nat → Bool) : Nat → Nat → Nat → Nat → Nat
  | 0, _, _, result => result
  | fuel + 1, low, high, result =>
    if low ≤ high then
      let mid := (low + high) / 2
      if fits mid then fpbLoop fits fuel (mid + 1) high mid
      else fpbLoop fits fuel low (mid - 1) result
    else result

/-- smart-paginator `findPageBreak`: binary search for the number of
paragraphs from `startIndex` whose rendered content height fits in
`availableHeight`; `measure` is the rendering oracle (a deterministic
function of the rendered paragraph prefix).  Returns at least 1. -/
def findPageBreak (measure : List (List Char) → Int) (paragraphs : List (List Char))
    (startIndex : Nat) (availableHeight : Int) : Nat :=
  let remaining := paragraphs.length - startIndex
  let result := fpbLoop
    (fun mid => decide (measure ((paragraphs.drop startIndex).take mid) ≤ availableHeight))
    remaining 1 remaining 0
  if 0 < result then result else 1

/-- smart-paginator `SmartPage`. -/
structure SmartPage where
  content : List Char
  pageNumber : Nat
  isFirst : Bool
  isLast : Bool
  paragraphs : List (List Char)
deriving DecidableEq

/-- The pagination loop of `smartPaginate`, with fuel (the wrapper passes
the paragraph count, which suffices since every page consumes at least one
paragraph). -/
def buildPages (measure : List (List Char) → Int) (paragraphs : List (List Char))
    (firstPageContentHeight baseContentHeight : Int) :
    Nat → Nat → Nat → List SmartPage
  | 0, _, _ => []
  | fuel + 1, currentIndex, pagesSoFar =>
    if currentIndex < paragraphs.length then
      let availableHeight := if pagesSoFar = 0 then firstPageContentHeight else baseContentHeight
      let count := findPageBreak measure paragraphs currentIndex availableHeight
      let pageParagraphs := (paragraphs.drop currentIndex).take count
      { content := List.intercalate ('\n' :: '\n' :: []) pageParagraphs,
        pageNumber := pagesSoFar + 1,
        isFirst := pagesSoFar == 0,
        isLast := false,
        paragraphs := pageParagraphs } ::
        buildPages measure paragraphs firstPageContentHeight baseContentHeight
          fuel (currentIndex + count) (pagesSoFar + 1)
    else []

/-- `pages[pages.length - 1].isLast = true` on a `SmartPage` list. -/
def markIsLast : List SmartPage → List SmartPage
  | [] => []
  | [pg] => [{ pg with isLast := true }]
  | pg :: rest => pg :: markIsLast rest

/-- smart-paginator `smartPaginate`: clean and split the text, then fill
pages with `findPageBreak`, using the measured first-page and base
available heights. -/
def smartPaginate (measure : List (List Char) → Int) (text : List Char)
    (firstPageContentHeight baseContentHeight : Int) : List SmartPage :=
  let paragraphs := paragraphsOf text
  if paragraphs.isEmpty then []
  else markIsLast
    (buildPages measure paragraphs firstPageContentHeight baseContentHeight
      paragraphs.length 0 0)

/-- smart-paginator `SAFETY_MARGIN`. -/
def SAFETY_MARGIN : Int := 30

/-- The `page.evaluate` callback in `measureAvailableHeight`:
`content ? content.getBoundingClientRect().height : 0` — `reported` is the
height the rendering oracle has for the measured element, `none` when the
element is absent. -/
def measuredContentHeight (reported : Option Int) : Int :=
  match reported with
  | some h => h
  | none => 0

/-- smart-paginator `measureAvailableHeight`.  The async function is
embedded as `Except String Int` (a rejection would be `Except.error`);
its body has no throw path and always returns the measured height minus
the safety margin. -/
def measureAvailableHeight (reported : Option Int) : Except String Int :=
  Except.ok (measuredContentHeight reported - SAFETY_MARGIN)

/-- The sentence-terminal characters of `/([。！？；.!?]+)/g`. -/
def isSentenceEnder (c : Char) : Bool :=
  c = '。' || c = '！' || c = '？' || c = '；' || c = '.' || c = '!' || c = '?'

/-- Worker for JavaScript `text.split(/(sep+)/g)` with a captured
separator group: alternating fragments and maximal separator runs.
`mode = true` while consuming a run; `cur` is the current piece reversed. -/
def splitKeepGo (p : Char → Bool) : Bool → List Char → List Char → List (List Char)
  | false, cur, [] => [cur.reverse]
  | true, cur, [] => [cur.reverse, []]
  | false, cur, c :: rest =>
    if p c then cur.reverse :: splitKeepGo p true [c] rest
    else splitKeepGo p false (c :: cur) rest
  | true, cur, c :: rest =>
    if p c then splitKeepGo p true (c :: cur) rest
    else cur.reverse :: splitKeepGo p false [c] rest

/-- JavaScript `text.split(/([...]+)/g)`: fragments and captured
separator runs, alternating, starting and ending with a fragment. -/
def splitWithSeps (p : Char → Bool) (text : List Char) : List (List Char) :=
  splitKeepGo p false [] text

/-- The pairing loop of `splitIntoSentences`: for `i = 0, 2, 4, ...`,
`sentence = parts[i] + (parts[i+1] || '')`, kept when `sentence.trim()` is
truthy. -/
def pairUp : List (List Char) → List (List Char)
  | [] => []
  | [f] => if (trim f).isEmpty then [] else [f]
  | f :: r :: rest =>
    if (trim (f ++ r)).isEmpty then pairUp rest else (f ++ r) :: pairUp rest

/-- paginator.ts `splitIntoSentences`. -/
def splitIntoSentences (text : List Char) : List (List Char) :=
  pairUp (splitWithSeps isSentenceEnder text)

/-- The last character of the list is a sentence terminator. -/
def endsWithEnder (l : List Char) : Bool :=
  match l.getLast? with
  | some c => isSentenceEnder c
  | none => false

/-- The first character of the list is a sentence terminator. -/
def beginsWithEnder (l : List Char) : Bool :=
  match l.head? with
  | some c => isSentenceEnder c
  | none => false

/-- A fragment: no sentence terminators. -/
def fragOk (f : List Char) : Prop := ∀ c ∈ f, isSentenceEnder c = false

/-- A separator run: non-empty and all sentence terminators. -/
def runOk (r : List Char) : Prop := r ≠ [] ∧ ∀ c ∈ r, isSentenceEnder c = true

/-- Shape of `splitWithSeps` output: fragment, run, fragment, run, ...,
fragment; when the flag is set the leading fragment is non-empty (interior
fragments always are; only the first and the final fragment may be empty). -/
inductive PartsOk : Bool → List (List Char) → Prop
  | last (flag : Bool) (f : List Char) : fragOk f → PartsOk flag [f]
  | cons (flag : Bool) (f r : List Char) (rest : List (List Char)) :
      fragOk f → (flag = true → f ≠ []) → runOk r → PartsOk true rest →
      PartsOk flag (f :: r :: rest)

/-- paginator.ts `Page`, extended with a specification-only `units` field
recording the text units (paragraphs or sentences, flagged `true` for
sentences) accumulated into the page; the other fields mirror the source. -/
structure PTPage where
  content : List Char
  pageNumber : Nat
  isFirst : Bool
  isLast : Bool
  units : List (List Char × Bool)
deriving DecidableEq

/-- The mutable loop state of `paginateText`. -/
structure PTState where
  pages : List PTPage
  content : List Char
  count : Nat
  units : List (List Char × Bool)
deriving DecidableEq

/-- `pages.push({content: currentPageContent.trim(), pageNumber, isFirst,
isLast})` followed by resetting the accumulators. -/
def flushPage (st : PTState) (last : Bool) : PTState :=
  { pages := st.pages ++
      [{ content := trim st.content,
         pageNumber := st.pages.length + 1,
         isFirst := st.pages.length == 0,
         isLast := last,
         units := st.units }],
    content := [], count := 0, units := [] }

/-- `getCurrentMaxChars()`: the first page uses `firstPageMaxChars`, later
pages use `maxChars`. -/
def curMaxChars (firstPageMaxChars maxChars : Nat) (st : PTState) : Nat :=
  if st.pages.length = 0 then firstPageMaxChars else maxChars

/-- The body of the inner sentence loop of `paginateText`. -/
def addSentence (firstPageMaxChars maxChars : Nat) (st : PTState)
    (sentence : List Char) : PTState :=
  let sentenceMaxChars := curMaxChars firstPageMaxChars maxChars st
  let st1 := if sentenceMaxChars < st.count + sentence.length ∧ st.content ≠ []
    then flushPage st false else st
  { st1 with
    content := st1.content ++ sentence,
    count := st1.count + sentence.length,
    units := st1.units ++ [(sentence, true)] }

/-- The body of the paragraph loop of `paginateText`. -/
def addParagraph (firstPageMaxChars maxChars : Nat) (st : PTState)
    (rawParagraph : List Char) : PTState :=
  let paragraph := trim rawParagraph
  let currentMaxChars := curMaxChars firstPageMaxChars maxChars st
  let st1 := if currentMaxChars < st.count + paragraph.length ∧ st.content ≠ []
    then flushPage st false else st
  let newMaxChars := curMaxChars firstPageMaxChars maxChars st1
  if newMaxChars < paragraph.length then
    (splitIntoSentences paragraph).foldl (addSentence firstPageMaxChars maxChars) st1
  else
    { st1 with
      content := st1.content ++ paragraph ++ ('\n' :: '\n' :: []),
      count := st1.count + paragraph.length,
      units := st1.units ++ [(paragraph, false)] }

/-- `pages[pages.length - 1].isLast = true` on a `PTPage` list. -/
def markIsLastPT : List PTPage → List PTPage
  | [] => []
  | [pg] => [{ pg with isLast := true }]
  | pg :: rest => pg :: markIsLastPT rest

/-- paginator.ts `paginateText`, parameterised by the two per-page
character limits it computes up front (`firstPageMaxChars`, `maxChars`):
clean and split the text, accumulate paragraphs (splitting oversized ones
into sentences), flush the trailing page, and mark the last page. -/
def paginateText (text : List Char) (firstPageMaxChars maxChars : Nat) : List PTPage :=
  let paragraphs := paragraphsOf text
  let st := paragraphs.foldl (addParagraph firstPageMaxChars maxChars)
    ⟨[], [], 0, []⟩
  let pages := if ¬(trim st.content).isEmpty then (flushPage st true).pages else st.pages
  markIsLastPT pages

/-- Total character count of the text units of a page. -/
def sumLens (us : List (List Char × Bool)) : Nat :=
  (us.map (fun u => u.1.length)).sum

/-- The character limit applicable to the page at index `i`. -/
def ptLimit (firstPageMaxChars maxChars i : Nat) : Nat :=
  if i = 0 then firstPageMaxChars else maxChars

/-- Budget discipline of an emitted page at index `i`: a page with two or
more units stays within its limit, and an over-limit page is a single
sentence unit. -/
def PageBudgetOk (firstPageMaxChars maxChars i : Nat) (pg : PTPage) : Prop :=
  (2 ≤ pg.units.length → sumLens pg.units ≤ ptLimit firstPageMaxChars maxChars i) ∧
  (ptLimit firstPageMaxChars maxChars i < sumLens pg.units →
    ∃ u, pg.units = [(u, true)])

/-- Budget discipline of every page in a list. -/
def PagesBudgetOk (firstPageMaxChars maxChars : Nat) (pages : List PTPage) : Prop :=
  ∀ i (hi : i < pages.length),
    PageBudgetOk firstPageMaxChars maxChars i pages[i]

/-- Flag and numbering discipline of the pages pushed during the loop. -/
def PagesFlagsOk (pages : List PTPage) : Prop :=
  ∀ i (hi : i < pages.length),
    pages[i].pageNumber = i + 1 ∧
    pages[i].isFirst = (i == 0) ∧
    pages[i].isLast = false

/-- The loop invariant of `paginateText`. -/
def StInv (firstPageMaxChars maxChars : Nat) (st : PTState) : Prop :=
  (st.content = [] → st.count = 0 ∧ st.units = []) ∧
  st.count = sumLens st.units ∧
  (st.count ≤ curMaxChars firstPageMaxChars maxChars st ∨ ∃ u, st.units = [(u, true)]) ∧
  PagesFlagsOk st.pages ∧
  PagesBudgetOk firstPageMaxChars maxChars st.pages

/-- A measurement oracle for witnesses: ten height units per paragraph. -/
def demoMeasure (l : List (List Char)) : Int := 10 * l.length

/-- A zero-height oracle for witnesses. -/
def measureZero (_ : List (List Char)) : Int := 0

/-- A concrete paragraph list for witnesses. -/
def demoParas : List (List Char) := [['a'], ['b'], ['c']]

/-- A concrete input text for witnesses. -/
def demoText : List Char := "a\n\nb".toList

/-- A concrete input text for the character-count paginator witnesses. -/
def demoText2 : List Char := "aa\n\nbb\n\ncccc".toList

/-- A concrete input for the sentence-splitter witnesses. -/
def demoSentText : List Char := "a.b".toList

/-! ## Lemmas about the binary-search loop -/

theorem fpbLoop_le (fits : Nat → Bool) :
    ∀ fuel low high r, fpbLoop fits fuel low high r ≤ max r high := by
  intro fuel
  induction fuel with
  | zero => intro low high r; simp [fpbLoop]
  | succ n ih =>
    intro low high r
    simp only [fpbLoop]
    by_cases hlh : low ≤ high
    · rw [if_pos hlh]
      by_cases hf : fits ((low + high) / 2) = true
      · rw [if_pos hf]
        have := ih ((low + high) / 2 + 1) high ((low + high) / 2)
        omega
      · rw [if_neg hf]
        have := ih low ((low + high) / 2 - 1) r
        omega
    · rw [if_neg hlh]; omega

theorem fpbLoop_ge (fits : Nat → Bool) :
    ∀ fuel low high r, r < low → r ≤ fpbLoop fits fuel low high r := by
  intro fuel
  induction fuel with
  | zero => intro low high r _; simp [fpbLoop]
  | succ n ih =>
    intro low high r hr
    simp only [fpbLoop]
    by_cases hlh : low ≤ high
    · rw [if_pos hlh]
      by_cases hf : fits ((low + high) / 2) = true
      · rw [if_pos hf]
        have := ih ((low + high) / 2 + 1) high ((low + high) / 2) (by omega)
        omega
      · rw [if_neg hf]
        exact ih low ((low + high) / 2 - 1) r hr
    · rw [if_neg hlh]

theorem fpbLoop_mono (fits1 fits2 : Nat → Bool)
    (hmono : ∀ k, fits1 k = true → fits2 k = true) :
    ∀ fuel low high r, r < low →
      fpbLoop fits1 fuel low high r ≤ fpbLoop fits2 fuel low high r := by
  intro fuel
  induction fuel with
  | zero => intro low high r _; simp [fpbLoop]
  | succ n ih =>
    intro low high r hr
    simp only [fpbLoop]
    by_cases hlh : low ≤ high
    · rw [if_pos hlh, if_pos hlh]
      by_cases h1 : fits1 ((low + high) / 2) = true
      · rw [if_pos h1, if_pos (hmono _ h1)]
        exact ih ((low + high) / 2 + 1) high ((low + high) / 2) (by omega)
      · rw [if_neg h1]
        by_cases h2 : fits2 ((low + high) / 2) = true
        · rw [if_pos h2]
          have hle := fpbLoop_le fits1 n low ((low + high) / 2 - 1) r
          have hge := fpbLoop_ge fits2 n ((low + high) / 2 + 1) high ((low + high) / 2)
            (by omega)
          omega
        · rw [if_neg h2]
          exact ih low ((low + high) / 2 - 1) r hr
    · rw [if_neg hlh, if_neg hlh]

theorem fpbLoop_allfalse (fits : Nat → Bool) (hall : ∀ k, fits k = false) :
    ∀ fuel low high r, fpbLoop fits fuel low high r = r := by
  intro fuel
  induction fuel with
  | zero => intro low high r; simp [fpbLoop]
  | succ n ih =>
    intro low high r
    simp only [fpbLoop]
    by_cases hlh : low ≤ high
    · rw [if_pos hlh, if_neg (by simp [hall])]
      exact ih low ((low + high) / 2 - 1) r
    · rw [if_neg hlh]

theorem fpbLoop_max (fits : Nat → Bool) (N : Nat)
    (hdc : ∀ j k, 1 ≤ j → j ≤ k → fits k = true → fits j = true) :
    ∀ fuel low high r, high + 1 - low ≤ fuel → 1 ≤ low → r + 1 = low →
      (r = 0 ∨ fits r = true) →
      (∀ k, 1 ≤ k → k ≤ N → fits k = true → k ≤ high ∨ k ≤ r) →
      (fpbLoop fits fuel low high r = 0 ∨ fits (fpbLoop fits fuel low high r) = true) ∧
      (∀ k, 1 ≤ k → k ≤ N → fits k = true → k ≤ fpbLoop fits fuel low high r) := by
  intro fuel
  induction fuel with
  | zero =>
    intro low high r hfuel hlow hr hfit hinv
    simp only [fpbLoop]
    refine ⟨hfit, fun k hk1 hkN hkf => ?_⟩
    rcases hinv k hk1 hkN hkf with h | h <;> omega
  | succ n ih =>
    intro low high r hfuel hlow hr hfit hinv
    simp only [fpbLoop]
    by_cases hlh : low ≤ high
    · rw [if_pos hlh]
      have hm1 : low ≤ (low + high) / 2 := by omega
      have hm2 : (low + high) / 2 ≤ high := by omega
      by_cases hf : fits ((low + high) / 2) = true
      · rw [if_pos hf]
        refine ih ((low + high) / 2 + 1) high ((low + high) / 2) (by omega) (by omega)
          rfl (Or.inr hf) (fun k hk1 hkN hkf => ?_)
        rcases hinv k hk1 hkN hkf with h | h <;> omega
      · rw [if_neg hf]
        refine ih low ((low + high) / 2 - 1) r (by omega) hlow hr hfit
          (fun k hk1 hkN hkf => ?_)
        rcases hinv k hk1 hkN hkf with h | h
        · by_cases hkm : k < (low + high) / 2
          · omega
          · exact absurd (hdc ((low + high) / 2) k (by omega) (by omega) hkf)
              (by simpa using hf)
        · omega
    · rw [if_neg hlh]
      refine ⟨hfit, fun k hk1 hkN hkf => ?_⟩
      rcases hinv k hk1 hkN hkf with h | h <;> omega

/-! ## Basic facts about `findPageBreak` -/

theorem findPageBreak_pos (measure : List (List Char) → Int)
    (paragraphs : List (List Char)) (startIndex : Nat) (availableHeight : Int) :
    1 ≤ findPageBreak measure paragraphs startIndex availableHeight := by
  simp only [findPageBreak]
  split <;> omega

theorem findPageBreak_le (measure : List (List Char) → Int)
    (paragraphs : List (List Char)) (startIndex : Nat) (availableHeight : Int)
    (hs : startIndex < paragraphs.length) :
    findPageBreak measure paragraphs startIndex availableHeight ≤
      paragraphs.length - startIndex := by
  simp only [findPageBreak]
  have h1 := fpbLoop_le
    (fun mid => decide (measure ((paragraphs.drop startIndex).take mid) ≤ availableHeight))
    (paragraphs.length - startIndex) 1 (paragraphs.length - startIndex) 0
  split <;> omega

/-- C1: for a measurement oracle that is a deterministic function of the
rendered paragraph prefix and monotone non-decreasing in prefix length,
`findPageBreak` returns the largest `k` with `1 ≤ k ≤ length - start`
whose measured height fits the budget when one exists, and returns
exactly 1 when even the single first paragraph measures above the budget
(for any budget, including 0 or negative). -/
theorem findPageBreak_correct (measure : List (List Char) → Int)
    (paragraphs : List (List Char)) (startIndex : Nat) (availableHeight : Int)
    (hstart : startIndex < paragraphs.length)
    (hmono : ∀ j k, j ≤ k →
      measure ((paragraphs.drop startIndex).take j) ≤
        measure ((paragraphs.drop startIndex).take k)) :
    ((∃ k, 1 ≤ k ∧ k ≤ paragraphs.length - startIndex ∧
        measure ((paragraphs.drop startIndex).take k) ≤ availableHeight) →
      1 ≤ findPageBreak measure paragraphs startIndex availableHeight ∧
      findPageBreak measure paragraphs startIndex availableHeight ≤
        paragraphs.length - startIndex ∧
      measure ((paragraphs.drop startIndex).take
        (findPageBreak measure paragraphs startIndex availableHeight)) ≤ availableHeight ∧
      (∀ k, k ≤ paragraphs.length - startIndex →
        measure ((paragraphs.drop startIndex).take k) ≤ availableHeight →
        k ≤ findPageBreak measure paragraphs startIndex availableHeight)) ∧
    (availableHeight < measure ((paragraphs.drop startIndex).take 1) →
      findPageBreak measure paragraphs startIndex availableHeight = 1) := by
  set fits : Nat → Bool := fun mid =>
    decide (measure ((paragraphs.drop startIndex).take mid) ≤ availableHeight) with hfits
  set n := paragraphs.length - startIndex with hn
  have hdc : ∀ j k, 1 ≤ j → j ≤ k → fits k = true → fits j = true := by
    intro j k _ hjk hk
    simp only [hfits, decide_eq_true_eq] at hk ⊢
    exact le_trans (hmono j k hjk) hk
  have hmain := fpbLoop_max fits n hdc n 1 n 0 (by omega) (by omega) rfl (Or.inl rfl)
    (fun k hk1 hkN hkf => Or.inl hkN)
  have hub := fpbLoop_le fits n 1 n 0
  have hfpb : findPageBreak measure paragraphs startIndex availableHeight =
      if 0 < fpbLoop fits n 1 n 0 then fpbLoop fits n 1 n 0 else 1 := rfl
  constructor
  · rintro ⟨k, hk1, hkn, hkfit⟩
    have hkf : fits k = true := by
      simp only [hfits, decide_eq_true_eq]; exact hkfit
    have hge := hmain.2 k hk1 hkn hkf
    have hpos : 0 < fpbLoop fits n 1 n 0 := by omega
    rw [hfpb, if_pos hpos]
    have hfitsout : fits (fpbLoop fits n 1 n 0) = true := by
      rcases hmain.1 with h | h
      · omega
      · exact h
    refine ⟨by omega, by omega, ?_, ?_⟩
    · simpa only [hfits, decide_eq_true_eq] using hfitsout
    · intro k' hk'n hk'fit
      by_cases hk'0 : k' = 0
      · omega
      · refine hmain.2 k' (by omega) hk'n ?_
        simp only [hfits, decide_eq_true_eq]; exact hk'fit
  · intro h1
    have hall : ∀ k, 1 ≤ k → fits k = false := by
      intro k hk
      by_contra hcon
      have hkt : fits k = true := by
        revert hcon; cases h : fits k <;> simp
      have h1t := hdc 1 k (le_refl 1) hk hkt
      simp only [hfits, decide_eq_true_eq] at h1t
      exact absurd h1t (not_le.mpr h1)
    rcases hmain.1 with h | h
    · rw [hfpb, h]; simp
    · by_cases h0 : fpbLoop fits n 1 n 0 = 0
      · rw [hfpb, h0]; simp
      · exact absurd h (by rw [hall _ (by omega)]; simp)

theorem findPageBreak_correct_witness :
    1 ≤ findPageBreak demoMeasure demoParas 0 25 ∧
    findPageBreak demoMeasure demoParas 0 25 ≤ demoParas.length - 0 ∧
    demoMeasure ((demoParas.drop 0).take (findPageBreak demoMeasure demoParas 0 25)) ≤ 25 ∧
    2 ≤ findPageBreak demoMeasure demoParas 0 25 := by
  have hmono : ∀ j k, j ≤ k →
      demoMeasure ((demoParas.drop 0).take j) ≤ demoMeasure ((demoParas.drop 0).take k) := by
    intro j k hjk
    simp only [demoMeasure]
    have hlen : ((demoParas.drop 0).take j).length ≤ ((demoParas.drop 0).take k).length := by
      simp only [List.length_take]; omega
    omega
  have h := (findPageBreak_correct demoMeasure demoParas 0 25 (by decide) hmono).1
    ⟨2, by decide, by decide, by decide⟩
  exact ⟨h.1, h.2.1, h.2.2.1, h.2.2.2 2 (by decide) (by decide)⟩

/-- C6: for a fixed paragraph list, start index and measurement oracle,
the count returned by `findPageBreak` is monotone non-decreasing in the
available-height budget. -/
theorem findPageBreak_budget_mono (measure : List (List Char) → Int)
    (paragraphs : List (List Char)) (startIndex : Nat) (h1 h2 : Int) (hh : h1 ≤ h2) :
    findPageBreak measure paragraphs startIndex h1 ≤
      findPageBreak measure paragraphs startIndex h2 := by
  have key := fpbLoop_mono
    (fun mid => decide (measure ((paragraphs.drop startIndex).take mid) ≤ h1))
    (fun mid => decide (measure ((paragraphs.drop startIndex).take mid) ≤ h2))
    (fun k hk => by
      simp only [decide_eq_true_eq] at hk ⊢
      exact le_trans hk hh)
    (paragraphs.length - startIndex) 1 (paragraphs.length - startIndex) 0 (by omega)
  simp only [findPageBreak]
  split <;> split <;> omega

theorem findPageBreak_budget_mono_witness :
    findPageBreak demoMeasure demoParas 0 5 ≤ findPageBreak demoMeasure demoParas 0 25 :=
  findPageBreak_budget_mono demoMeasure demoParas 0 5 25 (by decide)

/-- C3 counterexample: when the rendering oracle cannot report a height
for the expected content element (the element is absent), the Layout
Measurer does not raise an error — it returns the substitute budget
`0 - SAFETY_MARGIN = -30` as a successful result. -/
theorem measureAvailableHeight_absent_returns_ok :
    measureAvailableHeight none = Except.ok (-30) := rfl

/-- C3 (amended): `measureAvailableHeight` never raises; when the expected
element is absent it silently returns the budget `0 - SAFETY_MARGIN`, a
negative budget under which (for any oracle with non-negative heights)
every `findPageBreak` call returns 1, silently degrading every page to a
single paragraph. -/
theorem measureAvailableHeight_never_errors (reported : Option Int)
    (measure : List (List Char) → Int) (paragraphs : List (List Char)) (startIndex : Nat)
    (hnn : ∀ l, 0 ≤ measure l) :
    (∀ msg, measureAvailableHeight reported ≠ Except.error msg) ∧
    measureAvailableHeight none = Except.ok (0 - SAFETY_MARGIN) ∧
    findPageBreak measure paragraphs startIndex (0 - SAFETY_MARGIN) = 1 := by
  refine ⟨fun msg h => by simp [measureAvailableHeight] at h, rfl, ?_⟩
  have hall : ∀ k, (fun mid =>
      decide (measure ((paragraphs.drop startIndex).take mid) ≤ (0 - SAFETY_MARGIN))) k
        = false := by
    intro k
    simp only [decide_eq_false_iff_not, not_le]
    calc (0 : Int) - SAFETY_MARGIN < 0 := by norm_num [SAFETY_MARGIN]
      _ ≤ measure _ := hnn _
  simp only [findPageBreak]
  rw [fpbLoop_allfalse _ hall]
  simp

theorem measureAvailableHeight_never_errors_witness :
    measureAvailableHeight (some 500) ≠ Except.error "no element" ∧
    findPageBreak measureZero demoParas 0 (0 - SAFETY_MARGIN) = 1 := by
  have h := measureAvailableHeight_never_errors (some 500) measureZero demoParas 0
    (fun l => le_refl 0)
  exact ⟨h.1 "no element", h.2.2⟩

/-! ## The smart paginator partitions the paragraph list -/

theorem buildPages_join (measure : List (List Char) → Int) (paras : List (List Char))
    (fH bH : Int) :
    ∀ fuel currentIndex pagesSoFar, paras.length - currentIndex ≤ fuel →
      ((buildPages measure paras fH bH fuel currentIndex pagesSoFar).map
        (fun pg => pg.paragraphs)).flatten = paras.drop currentIndex := by
  intro fuel
  induction fuel with
  | zero =>
    intro ci ps hf
    simp only [buildPages, List.map_nil, List.flatten_nil]
    rw [List.drop_eq_nil_of_le (by omega)]
  | succ n ih =>
    intro ci ps hf
    simp only [buildPages]
    by_cases hci : ci < paras.length
    · rw [if_pos hci]
      have hpos := findPageBreak_pos measure paras ci (if ps = 0 then fH else bH)
      simp only [List.map_cons, List.flatten_cons]
      rw [ih (ci + findPageBreak measure paras ci (if ps = 0 then fH else bH)) (ps + 1)
        (by omega)]
      have hdd : paras.drop (ci + findPageBreak measure paras ci (if ps = 0 then fH else bH)) =
          (paras.drop ci).drop (findPageBreak measure paras ci (if ps = 0 then fH else bH)) := by
        rw [List.drop_drop, Nat.add_comm]
      rw [hdd, List.take_append_drop]
    · rw [if_neg hci]
      simp only [List.map_nil, List.flatten_nil]
      rw [List.drop_eq_nil_of_le (by omega)]

theorem markIsLast_map_paragraphs :
    ∀ l : List SmartPage,
      (markIsLast l).map (fun pg => pg.paragraphs) = l.map (fun pg => pg.paragraphs) := by
  intro l
  induction l with
  | nil => rfl
  | cons pg rest ih =>
    cases rest with
    | nil => rfl
    | cons q t =>
      simp only [markIsLast, List.map_cons] at ih ⊢
      rw [ih]

/-- C2: for every input text whose cleaned form yields a non-empty
paragraph list, the pages returned by `smartPaginate` partition that
paragraph list — concatenating the pages' `paragraphs` fields in page
order equals the original paragraph sequence exactly. -/
theorem smartPaginate_coverage (measure : List (List Char) → Int) (text : List Char)
    (firstPageContentHeight baseContentHeight : Int)
    (hne : paragraphsOf text ≠ []) :
    ((smartPaginate measure text firstPageContentHeight baseContentHeight).map
      (fun pg => pg.paragraphs)).flatten = paragraphsOf text := by
  simp only [smartPaginate]
  rw [if_neg (by simpa [List.isEmpty_iff] using hne)]
  rw [markIsLast_map_paragraphs]
  simpa using buildPages_join measure (paragraphsOf text) firstPageContentHeight
    baseContentHeight (paragraphsOf text).length 0 0 (by omega)

theorem smartPaginate_coverage_witness :
    ((smartPaginate demoMeasure demoText 100 100).map (fun pg => pg.paragraphs)).flatten =
      paragraphsOf demoText :=
  smartPaginate_coverage demoMeasure demoText 100 100 (by decide)

/-! ## Page numbering and flags: smart paginator -/

theorem buildPages_fields (measure : List (List Char) → Int) (paras : List (List Char))
    (fH bH : Int) :
    ∀ fuel ci ps i pg, (buildPages measure paras fH bH fuel ci ps)[i]? = some pg →
      pg.pageNumber = ps + i + 1 ∧ pg.isFirst = (ps + i == 0) ∧ pg.isLast = false := by
  intro fuel
  induction fuel with
  | zero => intro ci ps i pg h; simp [buildPages] at h
  | succ n ih =>
    intro ci ps i pg h
    simp only [buildPages] at h
    by_cases hci : ci < paras.length
    · rw [if_pos hci] at h
      cases i with
      | zero =>
        rw [List.getElem?_cons_zero, Option.some_inj] at h
        subst h
        exact ⟨rfl, rfl, rfl⟩
      | succ j =>
        rw [List.getElem?_cons_succ] at h
        obtain ⟨h1, h2, h3⟩ := ih _ _ j pg h
        refine ⟨by omega, ?_, h3⟩
        rw [h2, show ps + 1 + j = ps + (j + 1) from by omega]
    · rw [if_neg hci] at h
      simp at h

theorem markIsLast_length : ∀ l : List SmartPage, (markIsLast l).length = l.length := by
  intro l
  induction l with
  | nil => rfl
  | cons x rest ih =>
    cases rest with
    | nil => rfl
    | cons y t =>
      simp only [markIsLast, List.length_cons] at ih ⊢
      omega

theorem markIsLast_fields :
    ∀ (l : List SmartPage) i pg, (markIsLast l)[i]? = some pg →
      ∃ orig, l[i]? = some orig ∧ pg.pageNumber = orig.pageNumber ∧
        pg.isFirst = orig.isFirst ∧
        pg.isLast = (orig.isLast || decide (i + 1 = l.length)) := by
  intro l
  induction l with
  | nil => intro i pg h; simp [markIsLast] at h
  | cons x rest ih =>
    cases rest with
    | nil =>
      intro i pg h
      cases i with
      | zero =>
        simp only [markIsLast, List.getElem?_cons_zero, Option.some_inj] at h
        subst h
        refine ⟨x, rfl, rfl, rfl, ?_⟩
        simp
      | succ j =>
        simp [markIsLast] at h
    | cons y t =>
      intro i pg h
      cases i with
      | zero =>
        simp only [markIsLast, List.getElem?_cons_zero, Option.some_inj] at h
        subst h
        refine ⟨x, rfl, rfl, rfl, ?_⟩
        have hd : decide (0 + 1 = (x :: y :: t).length) = false := by
          simp only [List.length_cons, decide_eq_false_iff_not]
          omega
        rw [hd, Bool.or_false]
      | succ j =>
        simp only [markIsLast, List.getElem?_cons_succ] at h
        obtain ⟨orig, ho, h1, h2, h3⟩ := ih j pg h
        refine ⟨orig, by simpa [List.getElem?_cons_succ] using ho, h1, h2, ?_⟩
        rw [h3]
        congr 1
        rw [decide_eq_decide]
        simp only [List.length_cons]
        omega

/-! ## Sentences and paragraphs are never blank -/

theorem pairUp_mem_trim :
    ∀ (n : Nat) (parts : List (List Char)), parts.length ≤ n →
      ∀ s ∈ pairUp parts, (trim s).isEmpty = false := by
  intro n
  induction n with
  | zero =>
    intro parts hlen s hs
    match parts, hlen with
    | [], _ => simp [pairUp] at hs
  | succ m ih =>
    intro parts hlen s hs
    match parts with
    | [] => simp [pairUp] at hs
    | [f] =>
      simp only [pairUp] at hs
      by_cases he : (trim f).isEmpty
      · rw [if_pos he] at hs; simp at hs
      · rw [if_neg he] at hs
        simp only [List.mem_singleton] at hs
        subst hs
        simpa using he
    | f :: r :: rest =>
      simp only [pairUp] at hs
      have hlen' : rest.length ≤ m := by
        simp only [List.length_cons] at hlen; omega
      by_cases he : (trim (f ++ r)).isEmpty
      · rw [if_pos he] at hs
        exact ih rest hlen' s hs
      · rw [if_neg he] at hs
        rcases List.mem_cons.mp hs with h | h
        · subst h; simpa using he
        · exact ih rest hlen' s h

theorem sentences_trim_ne (t : List Char) :
    ∀ s ∈ splitIntoSentences t, (trim s).isEmpty = false := by
  intro s hs
  exact pairUp_mem_trim (splitWithSeps isSentenceEnder t).length _ (le_refl _) s hs

theorem sentences_nonempty (t : List Char) : ∀ s ∈ splitIntoSentences t, s ≠ [] := by
  intro s hs hnil
  have h := sentences_trim_ne t s hs
  subst hnil
  exact absurd h (by decide)

theorem paragraphsOf_mem_trim (text : List Char) :
    ∀ p ∈ paragraphsOf text, (trim p).isEmpty = false := by
  intro p hp
  simp only [paragraphsOf, List.mem_filter] at hp
  simpa using hp.2

theorem paragraphsOf_trim_ne (text : List Char) :
    ∀ p ∈ paragraphsOf text, trim p ≠ [] := by
  intro p hp h
  have h2 := paragraphsOf_mem_trim text p hp
  rw [h] at h2
  simp at h2

theorem sumLens_append (a b : List (List Char × Bool)) :
    sumLens (a ++ b) = sumLens a + sumLens b := by
  simp [sumLens]

/-! ## The paginateText loop invariant -/

theorem flushPage_budget (fM mC : Nat) (st : PTState) (last : Bool)
    (h : StInv fM mC st) : PagesBudgetOk fM mC ((flushPage st last).pages) := by
  obtain ⟨hemp, hcount, hdisj, hflags, hbudget⟩ := h
  intro i hi
  simp only [flushPage, List.length_append, List.length_cons, List.length_nil] at hi
  simp only [flushPage]
  by_cases hlt : i < st.pages.length
  · rw [List.getElem_append_left hlt]
    exact hbudget i hlt
  · have hieq : i = st.pages.length := by omega
    subst hieq
    simp only [List.getElem_concat_length]
    constructor
    · intro h2
      rcases hdisj with hd | ⟨u, hu⟩
      · show sumLens st.units ≤ ptLimit fM mC st.pages.length
        rw [← hcount]
        exact hd
      · exfalso
        ·
          simp only [] at h2
          rw [hu] at h2
          simp at h2
    · intro h2
      rcases hdisj with hd | ⟨u, hu⟩
      · exfalso
        have h3 : ptLimit fM mC st.pages.length < sumLens st.units := h2
        rw [← hcount] at h3
        have h4 : st.count ≤ ptLimit fM mC st.pages.length := hd
        omega
      · exact ⟨u, hu⟩

theorem flushPage_flags (st : PTState) (h : PagesFlagsOk st.pages) :
    PagesFlagsOk ((flushPage st false).pages) := by
  intro i hi
  simp only [flushPage, List.length_append, List.length_cons, List.length_nil] at hi
  simp only [flushPage]
  by_cases hlt : i < st.pages.length
  · rw [List.getElem_append_left hlt]
    exact h i hlt
  · have hieq : i = st.pages.length := by omega
    subst hieq
    simp only [List.getElem_concat_length]
    exact ⟨trivial, trivial, trivial⟩

theorem flushPage_stinv (fM mC : Nat) (st : PTState) (h : StInv fM mC st) :
    StInv fM mC (flushPage st false) := by
  refine ⟨fun _ => ⟨rfl, rfl⟩, rfl, Or.inl (Nat.zero_le _), flushPage_flags st h.2.2.2.1,
    flushPage_budget fM mC st false h⟩

theorem addSentence_stinv (fM mC : Nat) (st : PTState) (s : List Char)
    (h : StInv fM mC st) (hs : s ≠ []) : StInv fM mC (addSentence fM mC st s) := by
  obtain ⟨hemp, hcount, hdisj, hflags, hbudget⟩ := h
  simp only [addSentence]
  by_cases hcond : curMaxChars fM mC st < st.count + s.length ∧ st.content ≠ []
  · rw [if_pos hcond]
    have hfl := flushPage_stinv fM mC st ⟨hemp, hcount, hdisj, hflags, hbudget⟩
    refine ⟨?_, ?_, ?_, hfl.2.2.2.1, hfl.2.2.2.2⟩
    · intro hc
      exfalso
      simp only [flushPage, List.nil_append] at hc
      exact hs hc
    · simp [flushPage, sumLens]
    · exact Or.inr ⟨s, by simp [flushPage]⟩
  · rw [if_neg hcond]
    rcases not_and_or.mp hcond with hA | hB
    · refine ⟨?_, ?_, ?_, hflags, hbudget⟩
      · intro hc
        exfalso
        rcases List.append_eq_nil.mp hc with ⟨_, hs0⟩
        exact hs hs0
      · rw [sumLens_append, ← hcount]
        simp [sumLens]
      · left
        have hle : st.count + s.length ≤ curMaxChars fM mC st := Nat.le_of_not_lt hA
        exact hle
    · have hcontent : st.content = [] := not_not.mp hB
      obtain ⟨hc0, hu0⟩ := hemp hcontent
      refine ⟨?_, ?_, ?_, hflags, hbudget⟩
      · intro hc
        exfalso
        rcases List.append_eq_nil.mp hc with ⟨_, hs0⟩
        exact hs hs0
      · rw [sumLens_append, ← hcount]
        simp [sumLens]
      · right
        exact ⟨s, by rw [hu0]; simp⟩

theorem addSentence_foldl_stinv (fM mC : Nat) :
    ∀ (ss : List (List Char)) (st : PTState), StInv fM mC st →
      (∀ s ∈ ss, s ≠ []) → StInv fM mC (ss.foldl (addSentence fM mC) st) := by
  intro ss
  induction ss with
  | nil => intro st h _; exact h
  | cons s rest ih =>
    intro st h hne
    simp only [List.foldl_cons]
    exact ih (addSentence fM mC st s)
      (addSentence_stinv fM mC st s h (hne s (List.mem_cons_self s rest)))
      (fun x hx => hne x (List.mem_cons_of_mem s hx))

theorem addParagraph_stinv (fM mC : Nat) (st : PTState) (p0 : List Char)
    (h : StInv fM mC st) (hp : trim p0 ≠ []) :
    StInv fM mC (addParagraph fM mC st p0) := by
  obtain ⟨hemp, hcount, hdisj, hflags, hbudget⟩ := h
  simp only [addParagraph]
  by_cases hcond : curMaxChars fM mC st < st.count + (trim p0).length ∧ st.content ≠ []
  · rw [if_pos hcond]
    have hst1 := flushPage_stinv fM mC st ⟨hemp, hcount, hdisj, hflags, hbudget⟩
    by_cases hbig : curMaxChars fM mC (flushPage st false) < (trim p0).length
    · rw [if_pos hbig]
      exact addSentence_foldl_stinv fM mC _ _ hst1
        (fun s hs => sentences_nonempty _ s hs)
    · rw [if_neg hbig]
      refine ⟨?_, ?_, ?_, hst1.2.2.2.1, hst1.2.2.2.2⟩
      · intro hc
        exfalso
        simp [flushPage] at hc
      · simp [flushPage, sumLens]
      · left
        have hle : (trim p0).length ≤ curMaxChars fM mC (flushPage st false) :=
          Nat.le_of_not_lt hbig
        simpa [flushPage, curMaxChars] using hle
  · rw [if_neg hcond]
    by_cases hbig : curMaxChars fM mC st < (trim p0).length
    · rw [if_pos hbig]
      exact addSentence_foldl_stinv fM mC _ _ ⟨hemp, hcount, hdisj, hflags, hbudget⟩
        (fun s hs => sentences_nonempty _ s hs)
    · rw [if_neg hbig]
      have hle : (trim p0).length ≤ curMaxChars fM mC st := Nat.le_of_not_lt hbig
      rcases not_and_or.mp hcond with hA | hB
      · refine ⟨?_, ?_, ?_, hflags, hbudget⟩
        · intro hc
          exfalso
          simp at hc
        · rw [sumLens_append, ← hcount]
          simp [sumLens]
        · left
          exact Nat.le_of_not_lt hA
      · have hcontent : st.content = [] := not_not.mp hB
        obtain ⟨hc0, hu0⟩ := hemp hcontent
        refine ⟨?_, ?_, ?_, hflags, hbudget⟩
        · intro hc
          exfalso
          simp at hc
        · rw [sumLens_append, ← hcount]
          simp [sumLens]
        · left
          rw [hc0]
          simpa using hle

theorem addParagraph_foldl_stinv (fM mC : Nat) :
    ∀ (ps : List (List Char)) (st : PTState), StInv fM mC st →
      (∀ p ∈ ps, trim p ≠ []) → StInv fM mC (ps.foldl (addParagraph fM mC) st) := by
  intro ps
  induction ps with
  | nil => intro st h _; exact h
  | cons p rest ih =>
    intro st h hne
    simp only [List.foldl_cons]
    exact ih (addParagraph fM mC st p)
      (addParagraph_stinv fM mC st p h (hne p (List.mem_cons_self p rest)))
      (fun x hx => hne x (List.mem_cons_of_mem p hx))

theorem paginateText_stinv (text : List Char) (fM mC : Nat) :
    StInv fM mC ((paragraphsOf text).foldl (addParagraph fM mC) ⟨[], [], 0, []⟩) := by
  refine addParagraph_foldl_stinv fM mC (paragraphsOf text) _ ?_ (paragraphsOf_trim_ne text)
  refine ⟨fun _ => ⟨rfl, rfl⟩, rfl, Or.inl (Nat.zero_le _), ?_, ?_⟩
  · intro i hi; simp at hi
  · intro i hi; simp at hi

/-! ## Marking the last page of the character-count paginator -/

theorem markIsLastPT_length : ∀ l : List PTPage, (markIsLastPT l).length = l.length := by
  intro l
  induction l with
  | nil => rfl
  | cons x rest ih =>
    cases rest with
    | nil => rfl
    | cons y t =>
      simp only [markIsLastPT, List.length_cons] at ih ⊢
      omega

theorem markIsLastPT_fields :
    ∀ (l : List PTPage) i pg, (markIsLastPT l)[i]? = some pg →
      ∃ orig, l[i]? = some orig ∧ pg.pageNumber = orig.pageNumber ∧
        pg.isFirst = orig.isFirst ∧ pg.units = orig.units ∧
        pg.isLast = (orig.isLast || decide (i + 1 = l.length)) := by
  intro l
  induction l with
  | nil => intro i pg h; simp [markIsLastPT] at h
  | cons x rest ih =>
    cases rest with
    | nil =>
      intro i pg h
      cases i with
      | zero =>
        simp only [markIsLastPT, List.getElem?_cons_zero, Option.some_inj] at h
        subst h
        refine ⟨x, rfl, rfl, rfl, rfl, ?_⟩
        simp
      | succ j =>
        simp [markIsLastPT] at h
    | cons y t =>
      intro i pg h
      cases i with
      | zero =>
        simp only [markIsLastPT, List.getElem?_cons_zero, Option.some_inj] at h
        subst h
        refine ⟨x, rfl, rfl, rfl, rfl, ?_⟩
        have hd : decide (0 + 1 = (x :: y :: t).length) = false := by
          simp only [List.length_cons, decide_eq_false_iff_not]
          omega
        rw [hd, Bool.or_false]
      | succ j =>
        simp only [markIsLastPT, List.getElem?_cons_succ] at h
        obtain ⟨orig, ho, h1, h2, hu, h3⟩ := ih j pg h
        refine ⟨orig, by simpa [List.getElem?_cons_succ] using ho, h1, h2, hu, ?_⟩
        rw [h3]
        congr 1
        rw [decide_eq_decide]
        simp only [List.length_cons]
        omega

theorem markIsLastPT_final (pages : List PTPage)
    (hpre : ∀ i (hi : i < pages.length),
      pages[i].pageNumber = i + 1 ∧ pages[i].isFirst = (i == 0) ∧
      (i + 1 < pages.length → pages[i].isLast = false)) :
    ∀ i (hi : i < (markIsLastPT pages).length),
      ((markIsLastPT pages)[i]).pageNumber = i + 1 ∧
      (((markIsLastPT pages)[i]).isFirst = true ↔ i = 0) ∧
      (((markIsLastPT pages)[i]).isLast = true ↔ i + 1 = (markIsLastPT pages).length) := by
  intro i hi
  have hi' : i < pages.length := by rw [markIsLastPT_length] at hi; exact hi
  have hsome := List.getElem?_eq_getElem hi
  obtain ⟨orig, ho, h1, h2, hu, h3⟩ := markIsLastPT_fields pages i _ hsome
  have horig : orig = pages[i] := by
    rw [List.getElem?_eq_getElem hi'] at ho
    exact (Option.some_inj.mp ho).symm
  obtain ⟨hp1, hp2, hp3⟩ := hpre i hi'
  subst horig
  refine ⟨by rw [h1, hp1], ?_, ?_⟩
  · rw [h2, hp2]
    simp
  · rw [h3, markIsLastPT_length]
    by_cases hlast : i + 1 = pages.length
    · simp [hlast]
    · have hfalse := hp3 (by omega)
      simp [hfalse, hlast]

theorem append_premark (pagesA : List PTPage) (hA : PagesFlagsOk pagesA) (pg : PTPage)
    (hn : pg.pageNumber = pagesA.length + 1) (hf : pg.isFirst = (pagesA.length == 0)) :
    ∀ i (hi : i < (pagesA ++ [pg]).length),
      (pagesA ++ [pg])[i].pageNumber = i + 1 ∧ (pagesA ++ [pg])[i].isFirst = (i == 0) ∧
      (i + 1 < (pagesA ++ [pg]).length → (pagesA ++ [pg])[i].isLast = false) := by
  intro i hi
  simp only [List.length_append, List.length_cons, List.length_nil] at hi ⊢
  by_cases hlt : i < pagesA.length
  · rw [List.getElem_append_left hlt]
    obtain ⟨e1, e2, e3⟩ := hA i hlt
    exact ⟨e1, e2, fun _ => e3⟩
  · have hieq : i = pagesA.length := by omega
    subst hieq
    simp only [List.getElem_concat_length]
    exact ⟨hn, hf, fun hcon => by omega⟩

theorem paginateText_pages0 (text : List Char) (fM mC : Nat) :
    ∃ pages0, paginateText text fM mC = markIsLastPT pages0 ∧
      PagesBudgetOk fM mC pages0 ∧
      (∀ i (hi : i < pages0.length),
        pages0[i].pageNumber = i + 1 ∧ pages0[i].isFirst = (i == 0) ∧
        (i + 1 < pages0.length → pages0[i].isLast = false)) := by
  have hst := paginateText_stinv text fM mC
  by_cases hfl :
      ¬(trim ((paragraphsOf text).foldl (addParagraph fM mC) ⟨[], [], 0, []⟩).content).isEmpty
  · refine ⟨(flushPage ((paragraphsOf text).foldl (addParagraph fM mC) ⟨[], [], 0, []⟩)
        true).pages, ?_, flushPage_budget fM mC _ true hst, ?_⟩
    · simp only [paginateText, if_pos hfl]
    · exact append_premark _ hst.2.2.2.1 _ rfl rfl
  · refine ⟨((paragraphsOf text).foldl (addParagraph fM mC) ⟨[], [], 0, []⟩).pages,
      by simp only [paginateText, if_neg hfl], hst.2.2.2.2, ?_⟩
    intro i hi
    obtain ⟨e1, e2, e3⟩ := hst.2.2.2.1 i hi
    exact ⟨e1, e2, fun _ => e3⟩

/-- C5: in every completed pagination run of both `smartPaginate` and
`paginateText`, page numbering is 1-based and contiguous, `isFirst` holds
exactly at index 0, and `isLast` holds exactly at the final index (for a
single page both flags are true on that page). -/
theorem pagination_flags (measure : List (List Char) → Int) (text : List Char)
    (firstPageContentHeight baseContentHeight : Int) (firstPageMaxChars maxChars : Nat) :
    (∀ i (hi : i < (smartPaginate measure text firstPageContentHeight baseContentHeight).length),
      ((smartPaginate measure text firstPageContentHeight baseContentHeight)[i]).pageNumber
          = i + 1 ∧
      (((smartPaginate measure text firstPageContentHeight baseContentHeight)[i]).isFirst = true ↔
        i = 0) ∧
      (((smartPaginate measure text firstPageContentHeight baseContentHeight)[i]).isLast = true ↔
        i + 1 = (smartPaginate measure text firstPageContentHeight baseContentHeight).length)) ∧
    (∀ i (hi : i < (paginateText text firstPageMaxChars maxChars).length),
      ((paginateText text firstPageMaxChars maxChars)[i]).pageNumber = i + 1 ∧
      (((paginateText text firstPageMaxChars maxChars)[i]).isFirst = true ↔ i = 0) ∧
      (((paginateText text firstPageMaxChars maxChars)[i]).isLast = true ↔
        i + 1 = (paginateText text firstPageMaxChars maxChars).length)) := by
  constructor
  · intro i hi
    by_cases hpe : (paragraphsOf text).isEmpty
    · exfalso
      simp only [smartPaginate, if_pos hpe] at hi
      simp at hi
    · have hL : smartPaginate measure text firstPageContentHeight baseContentHeight =
          markIsLast (buildPages measure (paragraphsOf text) firstPageContentHeight
            baseContentHeight (paragraphsOf text).length 0 0) := by
        simp only [smartPaginate, if_neg hpe]
      simp only [hL] at hi ⊢
      have hsome := List.getElem?_eq_getElem hi
      obtain ⟨orig, ho, h1, h2, h3⟩ := markIsLast_fields _ i _ hsome
      obtain ⟨b1, b2, b3⟩ := buildPages_fields measure (paragraphsOf text)
        firstPageContentHeight baseContentHeight _ 0 0 i orig ho
      refine ⟨?_, ?_, ?_⟩
      · rw [h1, b1]; omega
      · rw [h2, b2]
        simp
      · rw [h3, b3, markIsLast_length]
        simp
  · intro i hi
    obtain ⟨pages0, hrw, _, hpre⟩ := paginateText_pages0 text firstPageMaxChars maxChars
    simp only [hrw] at hi ⊢
    exact markIsLastPT_final pages0 hpre i hi

theorem pagination_flags_witness :
    ((smartPaginate demoMeasure demoText 15 15).get ⟨0, by decide⟩).pageNumber = 1 ∧
    (((smartPaginate demoMeasure demoText 15 15).get ⟨1, by decide⟩).isLast = true ↔
      1 + 1 = (smartPaginate demoMeasure demoText 15 15).length) ∧
    (((paginateText demoText 4 4).get ⟨0, by decide⟩).isFirst = true ↔ (0 : Nat) = 0) := by
  have h := pagination_flags demoMeasure demoText 15 15 4 4
  exact ⟨(h.1 0 (by decide)).1, (h.1 1 (by decide)).2.2, (h.2 0 (by decide)).2.1⟩

/-- C10: in `paginateText`, every emitted page with two or more text units
(paragraphs or sentences) has total unit character count at most its
applicable limit (`firstPageMaxChars` for the first page, `maxChars`
later); a page can exceed its limit only when it consists of a single
sentence unit (produced by splitting an oversized paragraph, the only
place sentence units arise). -/
theorem paginateText_budget (text : List Char) (firstPageMaxChars maxChars : Nat) :
    ∀ i (hi : i < (paginateText text firstPageMaxChars maxChars).length),
      (2 ≤ ((paginateText text firstPageMaxChars maxChars)[i]).units.length →
        sumLens ((paginateText text firstPageMaxChars maxChars)[i]).units ≤
          ptLimit firstPageMaxChars maxChars i) ∧
      (ptLimit firstPageMaxChars maxChars i <
          sumLens ((paginateText text firstPageMaxChars maxChars)[i]).units →
        ∃ u, ((paginateText text firstPageMaxChars maxChars)[i]).units = [(u, true)]) := by
  intro i hi
  obtain ⟨pages0, hrw, hbudget, _⟩ := paginateText_pages0 text firstPageMaxChars maxChars
  simp only [hrw] at hi ⊢
  have hi' : i < pages0.length := by rw [markIsLastPT_length] at hi; exact hi
  have hsome := List.getElem?_eq_getElem hi
  obtain ⟨orig, ho, _, _, hu, _⟩ := markIsLastPT_fields pages0 i _ hsome
  have horig : orig = pages0[i] := by
    rw [List.getElem?_eq_getElem hi'] at ho
    exact (Option.some_inj.mp ho).symm
  subst horig
  rw [hu]
  exact ⟨(hbudget i hi').1, (hbudget i hi').2⟩

theorem paginateText_budget_witness :
    sumLens (((paginateText demoText2 4 4).get ⟨0, by decide⟩).units) ≤ ptLimit 4 4 0 := by
  have h := paginateText_budget demoText2 4 4 0 (by decide)
  exact h.1 (by decide)

/-! ## Paragraph splitting happens at every newline run -/

theorem splitNlGo_no_newline :
    ∀ (l : List Char) (mode : Bool) (cur : List Char), (∀ c ∈ cur, c ≠ '\n') →
      ∀ p ∈ splitNlGo mode cur l, ∀ c ∈ p, c ≠ '\n' := by
  intro l
  induction l with
  | nil =>
    intro mode cur hcur p hp c hc
    cases mode with
    | false =>
      simp only [splitNlGo, List.mem_singleton] at hp
      subst hp
      exact hcur c (List.mem_reverse.mp hc)
    | true =>
      simp only [splitNlGo, List.mem_singleton] at hp
      subst hp
      simp at hc
  | cons x rest ih =>
    intro mode cur hcur p hp c hc
    cases mode with
    | false =>
      by_cases hx : x = '\n'
      · rw [show splitNlGo false cur (x :: rest) =
            cur.reverse :: splitNlGo true [] rest from by simp [splitNlGo, hx]] at hp
        rcases List.mem_cons.mp hp with h | h
        · subst h; exact hcur c (List.mem_reverse.mp hc)
        · exact ih true [] (by simp) p h c hc
      · rw [show splitNlGo false cur (x :: rest) =
            splitNlGo false (x :: cur) rest from by simp [splitNlGo, hx]] at hp
        refine ih false (x :: cur) ?_ p hp c hc
        intro y hy
        rcases List.mem_cons.mp hy with h | h
        · subst h; exact hx
        · exact hcur y h
    | true =>
      by_cases hx : x = '\n'
      · rw [show splitNlGo true cur (x :: rest) =
            splitNlGo true [] rest from by simp [splitNlGo, hx]] at hp
        exact ih true [] (by simp) p hp c hc
      · rw [show splitNlGo true cur (x :: rest) =
            splitNlGo false [x] rest from by simp [splitNlGo, hx]] at hp
        refine ih false [x] ?_ p hp c hc
        intro y hy
        simp only [List.mem_singleton] at hy
        subst hy
        exact hx

/-- C4 counterexample: in the cleaned input `"a\nb"` the two non-empty
lines `a` and `b` are separated by a single newline with no blank line in
between, yet they do not belong to the same Paragraph — the code splits
on `/\n+/`, i.e. at every newline run, not only at blank lines. -/
theorem paragraphs_split_at_single_newline :
    ¬ ∃ p ∈ paragraphsOf ('a' :: '\n' :: 'b' :: []), 'a' ∈ p ∧ 'b' ∈ p := by decide

/-- C4 (amended): paragraphs are produced by splitting the cleaned input
at every maximal run of one or more newlines (not only at blank lines),
discarding whitespace-only fragments: every produced paragraph is
non-empty, newline-free and non-blank, so two non-empty lines separated
by even a single newline become separate paragraphs. -/
theorem paragraphsOf_pieces (text : List Char) :
    ∀ p ∈ paragraphsOf text,
      p ≠ [] ∧ (∀ c ∈ p, c ≠ '\n') ∧ (trim p).isEmpty = false := by
  intro p hp
  have htrim := paragraphsOf_mem_trim text p hp
  refine ⟨?_, ?_, htrim⟩
  · intro hnil
    subst hnil
    exact absurd htrim (by decide)
  · have hmem : p ∈ splitOnNewlineRuns (cleanText text) := by
      simp only [paragraphsOf, List.mem_filter] at hp
      exact hp.1
    exact splitNlGo_no_newline (cleanText text) false [] (by simp) p hmem

theorem paragraphsOf_pieces_witness :
    ('a' :: []) ≠ ([] : List Char) ∧ (∀ c ∈ ('a' :: []), c ≠ '\n') ∧
      (trim ('a' :: [])).isEmpty = false :=
  paragraphsOf_pieces ('a' :: '\n' :: 'b' :: []) ('a' :: []) (by decide)

/-! ## Whitespace facts -/

theorem trim_eq_nil_iff (l : List Char) :
    trim l = [] ↔ ∀ c ∈ l, isJsWhitespace c = true := by
  constructor
  · intro h c hc
    simp only [trim, List.reverse_eq_nil_iff, List.dropWhile_eq_nil_iff] at h
    have hdecomp : l.takeWhile isJsWhitespace ++ l.dropWhile isJsWhitespace = l :=
      List.takeWhile_append_dropWhile isJsWhitespace l
    rw [← hdecomp] at hc
    rcases List.mem_append.mp hc with h1 | h2
    · exact List.mem_takeWhile_imp h1
    · exact h c (List.mem_reverse.mpr h2)
  · intro h
    simp only [trim, List.reverse_eq_nil_iff, List.dropWhile_eq_nil_iff]
    intro x hx
    have hx2 : x ∈ l.dropWhile isJsWhitespace := List.mem_reverse.mp hx
    exact h x ((List.dropWhile_sublist isJsWhitespace).subset hx2)

theorem ender_not_ws (c : Char) (h : isSentenceEnder c = true) :
    isJsWhitespace c = false := by
  simp only [isSentenceEnder, Bool.or_eq_true, decide_eq_true_eq] at h
  rcases h with (((((h | h) | h) | h) | h) | h) | h <;> subst h <;> decide

theorem run_trim_ne (f r : List Char) (hr : runOk r) :
    (trim (f ++ r)).isEmpty = false := by
  rcases hr with ⟨hne, hall⟩
  obtain ⟨c, hc⟩ := List.exists_mem_of_ne_nil r hne
  have hws := ender_not_ws c (hall c hc)
  by_contra hcon
  rw [Bool.not_eq_false, List.isEmpty_iff] at hcon
  have := (trim_eq_nil_iff (f ++ r)).mp hcon c (List.mem_append_right f hc)
  rw [hws] at this
  exact absurd this (by decide)

/-! ## Shape of the sentence splitter output -/

theorem splitKeepGo_shape :
    ∀ l : List Char,
      (∀ cur flag, (∀ c ∈ cur, isSentenceEnder c = false) → (flag = true → cur ≠ []) →
        PartsOk flag (splitKeepGo isSentenceEnder false cur l)) ∧
      (∀ cur, cur ≠ [] → (∀ c ∈ cur, isSentenceEnder c = true) →
        ∃ r rest, splitKeepGo isSentenceEnder true cur l = r :: rest ∧ runOk r ∧
          PartsOk true rest) := by
  intro l
  induction l with
  | nil =>
    constructor
    · intro cur flag hfrag hflag
      simp only [splitKeepGo]
      exact PartsOk.last flag cur.reverse (fun c hc => hfrag c (List.mem_reverse.mp hc))
    · intro cur hne hall
      simp only [splitKeepGo]
      exact ⟨cur.reverse, [[]], rfl,
        ⟨by simpa using hne, fun c hc => hall c (List.mem_reverse.mp hc)⟩,
        PartsOk.last true [] (fun c hc => absurd hc (List.not_mem_nil c))⟩
  | cons x rest ih =>
    obtain ⟨ihF, ihT⟩ := ih
    constructor
    · intro cur flag hfrag hflag
      by_cases hx : isSentenceEnder x = true
      · rw [show splitKeepGo isSentenceEnder false cur (x :: rest) =
            cur.reverse :: splitKeepGo isSentenceEnder true [x] rest from by
          simp [splitKeepGo, hx]]
        obtain ⟨r, rest', heq, hr, hrest⟩ := ihT [x] (by simp)
          (fun c hc => by simp only [List.mem_singleton] at hc; subst hc; exact hx)
        rw [heq]
        refine PartsOk.cons flag cur.reverse r rest'
          (fun c hc => hfrag c (List.mem_reverse.mp hc)) ?_ hr hrest
        intro hf
        simpa using hflag hf
      · rw [show splitKeepGo isSentenceEnder false cur (x :: rest) =
            splitKeepGo isSentenceEnder false (x :: cur) rest from by
          simp [splitKeepGo, hx]]
        refine ihF (x :: cur) flag ?_ (fun _ => by simp)
        intro c hc
        rcases List.mem_cons.mp hc with h | h
        · subst h; simpa using hx
        · exact hfrag c h
    · intro cur hne hall
      by_cases hx : isSentenceEnder x = true
      · rw [show splitKeepGo isSentenceEnder true cur (x :: rest) =
            splitKeepGo isSentenceEnder true (x :: cur) rest from by
          simp [splitKeepGo, hx]]
        refine ihT (x :: cur) (by simp) ?_
        intro c hc
        rcases List.mem_cons.mp hc with h | h
        · subst h; exact hx
        · exact hall c h
      · rw [show splitKeepGo isSentenceEnder true cur (x :: rest) =
            cur.reverse :: splitKeepGo isSentenceEnder false [x] rest from by
          simp [splitKeepGo, hx]]
        refine ⟨cur.reverse, splitKeepGo isSentenceEnder false [x] rest, rfl,
          ⟨by simpa using hne, fun c hc => hall c (List.mem_reverse.mp hc)⟩, ?_⟩
        refine ihF [x] true ?_ (fun _ => by simp)
        intro c hc
        simp only [List.mem_singleton] at hc
        subst hc
        simpa using hx

theorem splitWithSeps_partsOk (t : List Char) :
    PartsOk false (splitWithSeps isSentenceEnder t) :=
  (splitKeepGo_shape t).1 [] false (fun c hc => absurd hc (List.not_mem_nil c))
    (fun h => by simp at h)

theorem splitKeepGo_flatten :
    ∀ (l : List Char) (mode : Bool) (cur : List Char),
      (splitKeepGo isSentenceEnder mode cur l).flatten = cur.reverse ++ l := by
  intro l
  induction l with
  | nil => intro mode cur; cases mode <;> simp [splitKeepGo]
  | cons x rest ih =>
    intro mode cur
    cases mode with
    | false =>
      by_cases hx : isSentenceEnder x = true
      · rw [show splitKeepGo isSentenceEnder false cur (x :: rest) =
            cur.reverse :: splitKeepGo isSentenceEnder true [x] rest from by
          simp [splitKeepGo, hx]]
        simp [ih true [x]]
      · rw [show splitKeepGo isSentenceEnder false cur (x :: rest) =
            splitKeepGo isSentenceEnder false (x :: cur) rest from by
          simp [splitKeepGo, hx]]
        rw [ih false (x :: cur)]
        simp
    | true =>
      by_cases hx : isSentenceEnder x = true
      · rw [show splitKeepGo isSentenceEnder true cur (x :: rest) =
            splitKeepGo isSentenceEnder true (x :: cur) rest from by
          simp [splitKeepGo, hx]]
        rw [ih true (x :: cur)]
        simp
      · rw [show splitKeepGo isSentenceEnder true cur (x :: rest) =
            cur.reverse :: splitKeepGo isSentenceEnder false [x] rest from by
          simp [splitKeepGo, hx]]
        simp [ih false [x]]

theorem endsWithEnder_append_run (f r : List Char) (hr : runOk r) :
    endsWithEnder (f ++ r) = true := by
  rcases hr with ⟨hne, hall⟩
  have h1 : (f ++ r).getLast? = r.getLast? := List.getLast?_append_of_ne_nil f hne
  have h2 : r.getLast? = some (r.getLast hne) := List.getLast?_eq_getLast r hne
  simp only [endsWithEnder, h1, h2]
  exact hall _ (List.getLast_mem hne)

theorem beginsWithEnder_frag (f rest : List Char) (hne : f ≠ [])
    (hfrag : ∀ c ∈ f, isSentenceEnder c = false) :
    beginsWithEnder (f ++ rest) = false := by
  cases f with
  | nil => exact absurd rfl hne
  | cons c t =>
    simp only [List.cons_append, beginsWithEnder, List.head?_cons]
    exact hfrag c (List.mem_cons_self c t)

theorem pairUp_spec :
    ∀ (flag : Bool) (parts : List (List Char)), PartsOk flag parts →
      (∀ i (hi : i < (pairUp parts).length), i + 1 < (pairUp parts).length →
        endsWithEnder ((pairUp parts)[i]) = true) ∧
      (∀ i (hi : i < (pairUp parts).length), (flag = true ∨ 1 ≤ i) →
        beginsWithEnder ((pairUp parts)[i]) = false) ∧
      ((∀ f ∈ parts, trim f = [] → f = []) →
        (pairUp parts).flatten = parts.flatten) := by
  intro flag parts h
  induction h with
  | last flag f hfrag =>
    refine ⟨?_, ?_, ?_⟩
    · intro i hi hi1
      exfalso
      simp only [pairUp] at hi1
      by_cases he : (trim f).isEmpty
      · rw [if_pos he] at hi1
        simp only [List.length_nil] at hi1
        omega
      · rw [if_neg he] at hi1
        simp only [List.length_cons, List.length_nil] at hi1
        omega
    · intro i hi hcond
      simp only [pairUp] at hi ⊢
      by_cases he : (trim f).isEmpty
      · simp only [if_pos he] at hi
        simp only [List.length_nil] at hi
        omega
      · simp only [if_neg he] at hi ⊢
        have hi0 : i = 0 := by
          simp only [List.length_cons, List.length_nil] at hi
          omega
        subst hi0
        simp only [List.getElem_cons_zero]
        have hfne : f ≠ [] := by
          intro hnil
          subst hnil
          exact he (by decide)
        have hb := beginsWithEnder_frag f [] hfne hfrag
        rw [List.append_nil] at hb
        exact hb
    · intro hws
      simp only [pairUp]
      by_cases he : (trim f).isEmpty
      · rw [if_pos he]
        have hf0 : f = [] := hws f (by simp) (by simpa [List.isEmpty_iff] using he)
        simp [hf0]
      · rw [if_neg he]
  | cons flag f r rest hfrag hflag hrun hrest ih =>
    obtain ⟨ihEnds, ihBegins, ihJoin⟩ := ih
    have hkeep : (trim (f ++ r)).isEmpty = false := run_trim_ne f r hrun
    have hkeep' : ¬((trim (f ++ r)).isEmpty = true) := by simp [hkeep]
    have hpu : pairUp (f :: r :: rest) = (f ++ r) :: pairUp rest := by
      simp only [pairUp, if_neg hkeep']
    refine ⟨?_, ?_, ?_⟩
    · intro i hi hi1
      simp only [hpu] at hi hi1 ⊢
      cases i with
      | zero =>
        simp only [List.getElem_cons_zero]
        exact endsWithEnder_append_run f r hrun
      | succ j =>
        simp only [List.getElem_cons_succ]
        simp only [List.length_cons] at hi hi1
        exact ihEnds j (by omega) (by omega)
    · intro i hi hcond
      simp only [hpu] at hi ⊢
      cases i with
      | zero =>
        simp only [List.getElem_cons_zero]
        rcases hcond with hf | h1
        · exact beginsWithEnder_frag f r (hflag hf) hfrag
        · omega
      | succ j =>
        simp only [List.getElem_cons_succ]
        simp only [List.length_cons] at hi
        exact ihBegins j (by omega) (Or.inl rfl)
    · intro hws
      rw [hpu]
      simp only [List.flatten_cons]
      rw [ihJoin (fun g hg hgt => hws g (by simp [hg]) hgt)]
      simp

/-- C8: `splitIntoSentences` splits exactly at maximal runs of the
sentence-terminal characters, attaching each run to the preceding
sentence: every returned sentence except possibly the last ends with a
terminator, no returned sentence after the first begins with a terminator
(a run never leaks into the following sentence), and whenever no fragment
between terminator runs is whitespace-only, concatenating the returned
sentences reproduces the input exactly. -/
theorem splitIntoSentences_spec (text : List Char) :
    (∀ i (hi : i < (splitIntoSentences text).length),
      i + 1 < (splitIntoSentences text).length →
      endsWithEnder ((splitIntoSentences text)[i]) = true) ∧
    (∀ i (hi : i < (splitIntoSentences text).length), 1 ≤ i →
      beginsWithEnder ((splitIntoSentences text)[i]) = false) ∧
    ((∀ f ∈ splitWithSeps isSentenceEnder text, trim f = [] → f = []) →
      (splitIntoSentences text).flatten = text) := by
  obtain ⟨hE, hB, hJ⟩ := pairUp_spec false _ (splitWithSeps_partsOk text)
  refine ⟨hE, fun i hi h1 => hB i hi (Or.inr h1), fun hws => ?_⟩
  have hflat := hJ hws
  rw [splitIntoSentences, hflat]
  simpa using splitKeepGo_flatten text false []

theorem splitIntoSentences_spec_witness :
    endsWithEnder ((splitIntoSentences demoSentText).get ⟨0, by decide⟩) = true ∧
    beginsWithEnder ((splitIntoSentences demoSentText).get ⟨1, by decide⟩) = false ∧
    (splitIntoSentences demoSentText).flatten = demoSentText := by
  have h := splitIntoSentences_spec demoSentText
  exact ⟨h.1 0 (by decide) (by decide), h.2.1 1 (by decide) (by decide), h.2.2 (by decide)⟩

/-! ## HTML escaping -/

theorem replaceChar_append (c : Char) (r : List Char) :
    ∀ a b : List Char, replaceChar c r (a ++ b) = replaceChar c r a ++ replaceChar c r b := by
  intro a
  induction a with
  | nil => intro b; simp [replaceChar]
  | cons x t ih =>
    intro b
    simp only [List.cons_append, replaceChar, List.append_eq, ih, List.append_assoc]

theorem escapeHtml_cons (x : Char) (t : List Char) :
    escapeHtml (x :: t) = escChar x ++ escapeHtml t := by
  show replaceChar '\'' ("&#039;".toList)
      (replaceChar '"' ("&quot;".toList)
        (replaceChar '>' ("&gt;".toList)
          (replaceChar '<' ("&lt;".toList)
            (replaceChar '&' ("&amp;".toList) (x :: t))))) = _
  rw [show replaceChar '&' ("&amp;".toList) (x :: t) =
      (if x = '&' then "&amp;".toList else [x]) ++ replaceChar '&' ("&amp;".toList) t
    from rfl]
  rw [replaceChar_append, replaceChar_append, replaceChar_append, replaceChar_append]
  show _ ++ escapeHtml t = escChar x ++ escapeHtml t
  congr 1
  by_cases h1 : x = '&'
  · subst h1; decide
  · by_cases h2 : x = '<'
    · subst h2; decide
    · by_cases h3 : x = '>'
      · subst h3; decide
      · by_cases h4 : x = '"'
        · subst h4; decide
        · by_cases h5 : x = '\''
          · subst h5; decide
          · simp [replaceChar, escChar, h1, h2, h3, h4, h5]

theorem escapeHtml_eq (s : List Char) : escapeHtml s = (s.map escChar).flatten := by
  induction s with
  | nil => rfl
  | cons x t ih =>
    rw [escapeHtml_cons, List.map_cons, List.flatten_cons, ih]

theorem escChar_mem (x : Char) :
    ∀ c ∈ escChar x, c ≠ '<' ∧ c ≠ '>' ∧ c ≠ '"' ∧ c ≠ '\'' := by
  by_cases h1 : x = '&'
  · subst h1; decide
  · by_cases h2 : x = '<'
    · subst h2; decide
    · by_cases h3 : x = '>'
      · subst h3; decide
      · by_cases h4 : x = '"'
        · subst h4; decide
        · by_cases h5 : x = '\''
          · subst h5; decide
          · intro c hc
            simp only [escChar, if_neg h1, if_neg h2, if_neg h3, if_neg h4, if_neg h5,
              List.mem_singleton] at hc
            subst hc
            exact ⟨h2, h3, h4, h5⟩

theorem ampOk_append_escChar (x : Char) (t : List Char) (h : ampOk t = true) :
    ampOk (escChar x ++ t) = true := by
  by_cases h1 : x = '&'
  · subst h1
    simp [escChar, ampOk, entityTail, List.isPrefixOf, h]
  · by_cases h2 : x = '<'
    · subst h2
      simp [escChar, ampOk, entityTail, List.isPrefixOf, h]
    · by_cases h3 : x = '>'
      · subst h3
        simp [escChar, ampOk, entityTail, List.isPrefixOf, h]
      · by_cases h4 : x = '"'
        · subst h4
          simp [escChar, ampOk, entityTail, List.isPrefixOf, h]
        · by_cases h5 : x = '\''
          · subst h5
            simp [escChar, ampOk, entityTail, List.isPrefixOf, h]
          · simp only [escChar, if_neg h1, if_neg h2, if_neg h3, if_neg h4, if_neg h5,
              List.singleton_append, ampOk, h, Bool.and_true]
            have : (x != '&') = true := by simpa using h1
            simp [this]

theorem escapeHtml_ampOk (s : List Char) : ampOk (escapeHtml s) = true := by
  rw [escapeHtml_eq]
  induction s with
  | nil => rfl
  | cons x t ih =>
    simp only [List.map_cons, List.flatten_cons]
    exact ampOk_append_escChar x _ ih

/-- C9: `escapeHtml` output contains none of the characters `<`, `>`,
`"`, `'`, and every `&` in the output starts one of the five emitted
entities (`&amp;` `&lt;` `&gt;` `&quot;` `&#039;`), so interpolated
paragraph/title text can never introduce new HTML element or attribute
syntax. -/
theorem escapeHtml_safe (s : List Char) :
    (∀ c ∈ escapeHtml s, c ≠ '<' ∧ c ≠ '>' ∧ c ≠ '"' ∧ c ≠ '\'') ∧
    ampOk (escapeHtml s) = true := by
  refine ⟨?_, escapeHtml_ampOk s⟩
  intro c hc
  rw [escapeHtml_eq] at hc
  simp only [List.mem_flatten, List.mem_map] at hc
  obtain ⟨piece, ⟨x, hx, hpx⟩, hcp⟩ := hc
  subst hpx
  exact escChar_mem x c hcp

theorem escapeHtml_safe_witness :
    ('<' ∉ escapeHtml ('<' :: '&' :: 'a' :: [])) ∧
    ampOk (escapeHtml ('<' :: '&' :: 'a' :: [])) = true := by
  have h := escapeHtml_safe ('<' :: '&' :: 'a' :: [])
  exact ⟨fun hc => (h.1 '<' hc).1 rfl, h.2⟩

/-! ## Probe markup versus compositor markup -/

theorem splitNlGo_frag_end :
    ∀ (p cur : List Char), (∀ c ∈ p, c ≠ '\n') →
      splitNlGo false cur p = [cur.reverse ++ p] := by
  intro p
  induction p with
  | nil => intro cur _; simp [splitNlGo]
  | cons c t ih =>
    intro cur h
    have hc : c ≠ '\n' := h c (List.mem_cons_self c t)
    rw [show splitNlGo false cur (c :: t) = splitNlGo false (c :: cur) t from by
      simp [splitNlGo, hc]]
    rw [ih (c :: cur) (fun x hx => h x (List.mem_cons_of_mem c hx))]
    simp

theorem splitNlGo_frag_sep :
    ∀ (p cur t : List Char), (∀ c ∈ p, c ≠ '\n') →
      splitNlGo false cur (p ++ '\n' :: t) =
        (cur.reverse ++ p) :: splitNlGo true [] t := by
  intro p
  induction p with
  | nil =>
    intro cur t _
    simp [splitNlGo]
  | cons c q ih =>
    intro cur t h
    have hc : c ≠ '\n' := h c (List.mem_cons_self c q)
    rw [show (c :: q) ++ '\n' :: t = c :: (q ++ '\n' :: t) from rfl]
    rw [show splitNlGo false cur (c :: (q ++ '\n' :: t)) =
        splitNlGo false (c :: cur) (q ++ '\n' :: t) from by simp [splitNlGo, hc]]
    rw [ih (c :: cur) t (fun x hx => h x (List.mem_cons_of_mem c hx))]
    simp

theorem splitNlGo_skip (t : List Char) :
    splitNlGo true [] ('\n' :: t) = splitNlGo true [] t := by
  simp [splitNlGo]

theorem splitNlGo_true_to_false (q X : List Char) (hq : q ≠ [])
    (hnl : ∀ c ∈ q, c ≠ '\n') :
    splitNlGo true [] (q ++ X) = splitNlGo false [] (q ++ X) := by
  cases q with
  | nil => exact absurd rfl hq
  | cons c t =>
    have hc : c ≠ '\n' := hnl c (List.mem_cons_self c t)
    simp [splitNlGo, hc]

theorem intercalate_cons_cons (p q : List Char) (rest : List (List Char)) :
    List.intercalate ('\n' :: '\n' :: []) (p :: q :: rest) =
      p ++ '\n' :: ('\n' :: List.intercalate ('\n' :: '\n' :: []) (q :: rest)) := by
  simp [List.intercalate, List.intersperse]

theorem split_roundtrip :
    ∀ paras : List (List Char),
      (∀ p ∈ paras, p ≠ [] ∧ (∀ c ∈ p, c ≠ '\n') ∧ (trim p).isEmpty = false) →
      (splitOnNewlineRuns (List.intercalate ('\n' :: '\n' :: []) paras)).filter
        (fun p => !(trim p).isEmpty) = paras := by
  intro paras
  induction paras with
  | nil => intro _; decide
  | cons p rest ih =>
    intro h
    obtain ⟨hp0, hpn, hpt⟩ := h p (List.mem_cons_self p rest)
    cases rest with
    | nil =>
      have hic : List.intercalate ('\n' :: '\n' :: []) [p] = p := by
        simp [List.intercalate]
      rw [hic, splitOnNewlineRuns, splitNlGo_frag_end p [] hpn]
      simp [List.filter, hpt]
    | cons q rest' =>
      obtain ⟨hq0, hqn, _⟩ := h q (by simp)
      rw [intercalate_cons_cons, splitOnNewlineRuns, splitNlGo_frag_sep p [] _ hpn,
        splitNlGo_skip]
      have hqic : ∃ X, List.intercalate ('\n' :: '\n' :: []) (q :: rest') = q ++ X := by
        cases rest' with
        | nil => exact ⟨[], by simp [List.intercalate]⟩
        | cons z zs =>
          exact ⟨'\n' :: ('\n' :: List.intercalate ('\n' :: '\n' :: []) (z :: zs)),
            intercalate_cons_cons q z zs⟩
      obtain ⟨X, hX⟩ := hqic
      rw [hX, splitNlGo_true_to_false q X hq0 hqn, ← hX]
      rw [show splitNlGo false [] (List.intercalate ('\n' :: '\n' :: []) (q :: rest')) =
        splitOnNewlineRuns (List.intercalate ('\n' :: '\n' :: []) (q :: rest')) from rfl]
      simp only [List.filter_cons, List.reverse_nil, List.nil_append]
      rw [if_pos (show (!(trim p).isEmpty) = true from by simp [hpt])]
      rw [ih (fun x hx => h x (List.mem_cons_of_mem p hx))]

/-- C7 counterexample: the footer markup a Page-Break Search probe renders
is hard-coded to `1 / 1`, while the Page Compositor interpolates the real
page number and total; for page 2 of 3 the two footer markups differ, so
the probe body markup is not byte-identical to the compositor markup in
general. -/
theorem footer_markup_differs : compositorFooterHtml 2 3 ≠ probeFooterHtml := by decide

/-- C7 (amended): for paragraph lists as produced by the paginator
(non-empty, newline-free, non-blank), the per-paragraph HTML a probe
renders is byte-identical to the compositor `paragraphsToHtml` applied to
the page content built from the same paragraphs; the footer markup is
byte-identical only up to the interpolated page numbers — it coincides
exactly for a page rendered as `1 / 1`. -/
theorem probe_matches_compositor (paras : List (List Char))
    (hp : ∀ p ∈ paras, p ≠ [] ∧ (∀ c ∈ p, c ≠ '\n') ∧ (trim p).isEmpty = false) :
    probeParagraphsHtml paras =
      paragraphsToHtml (List.intercalate ('\n' :: '\n' :: []) paras) ∧
    compositorFooterHtml 1 1 = probeFooterHtml := by
  constructor
  · simp only [paragraphsToHtml, probeParagraphsHtml]
    rw [split_roundtrip paras hp]
    have hsame : rendererParagraphHtml = paragraphToHtml := rfl
    rw [hsame]
  · decide

theorem probe_matches_compositor_witness :
    probeParagraphsHtml demoParas =
      paragraphsToHtml (List.intercalate ('\n' :: '\n' :: []) demoParas) ∧
    compositorFooterHtml 1 1 = probeFooterHtml :=
  probe_matches_compositor demoParas (by decide)
